import Mathlib

/-!
# OctopusDB — verification of the natural-language specification

Shallow embedding of the OctopusDB sources (worker message handler,
KVStore, OCC handler, transaction, reentrant mutexes, binary-heap
priority queue, advanced task queue) together with theorems settling
the spec claims C1–C10.
-/

set_option maxHeartbeats 1000000

namespace OctopusDB

/-! ## Association-list model of a JS `Map`

JS `Map` keys are unique and iteration follows insertion order; we model a
`Map` as an association list.  `aset` replaces in place (as `Map.set` does
for an existing key) and appends otherwise; `adel` removes the entry. -/

def alookup [DecidableEq κ] : List (κ × α) → κ → Option α
  | [], _ => none
  | (k₁, v) :: rest, k => if k₁ = k then some v else alookup rest k

def aset [DecidableEq κ] : List (κ × α) → κ → α → List (κ × α)
  | [], k, v => [(k, v)]
  | (k₁, v₁) :: rest, k, v =>
      if k₁ = k then (k, v) :: rest else (k₁, v₁) :: aset rest k v

def adel [DecidableEq κ] : List (κ × α) → κ → List (κ × α)
  | [], _ => []
  | (k₁, v₁) :: rest, k => if k₁ = k then rest else (k₁, v₁) :: adel rest k

def ahas [DecidableEq κ] (m : List (κ × α)) (k : κ) : Bool :=
  (alookup m k).isSome

/-- Well-formedness of a `Map` state: keys are unique (guaranteed by JS). -/
def MapWF [DecidableEq κ] (m : List (κ × α)) : Prop :=
  (m.map (·.1)).Nodup

theorem alookup_eq_none_of_not_mem [DecidableEq κ] (m : List (κ × α)) (k : κ)
    (h : k ∉ m.map (·.1)) : alookup m k = none := by
  induction m with
  | nil => rfl
  | cons p rest ih =>
      obtain ⟨k₁, v₁⟩ := p
      simp only [List.map_cons, List.mem_cons] at h
      push_neg at h
      have hne : ¬ (k₁ = k) := fun he => h.1 he.symm
      simp only [alookup, if_neg hne]
      exact ih h.2

theorem alookup_adel_self [DecidableEq κ] (m : List (κ × α)) (k : κ)
    (hwf : MapWF m) : alookup (adel m k) k = none := by
  induction m with
  | nil => rfl
  | cons p rest ih =>
      obtain ⟨k₁, v₁⟩ := p
      simp only [MapWF, List.map_cons, List.nodup_cons] at hwf
      by_cases h : k₁ = k
      · subst h
        simp only [adel, if_pos rfl]
        exact alookup_eq_none_of_not_mem rest k₁ hwf.1
      · simp only [adel, if_neg h, alookup, if_neg h]
        exact ih hwf.2

/-! ## JS value model (worker.ts in-memory store)

The worker's `store: Map<string, any>` holds strings, numbers, arrays
(lists) and `Set`s.  `truthy` captures JS truthiness of these values
(`""` and `0` are falsy; arrays and Sets are always truthy). -/

inductive JSValue where
  | str : String → JSValue
  | num : Int → JSValue
  | list : List String → JSValue
  | setv : List String → JSValue
deriving DecidableEq, Repr

def JSValue.truthy : JSValue → Bool
  | .str s => s ≠ ""
  | .num n => n ≠ 0
  | .list _ => true
  | .setv _ => true

def JSValue.isList : JSValue → Bool
  | .list _ => true
  | _ => false

def JSValue.isSet : JSValue → Bool
  | .setv _ => true
  | _ => false

/-- A value posted back to the main thread via `parentPort.postMessage`. -/
inductive JSResult where
  | val : JSValue → JSResult
  | nullv : JSResult
  | undef : JSResult
deriving DecidableEq, Repr

/-- An uncaught JS runtime exception inside the worker handler. -/
inductive JSError where
  | typeError : JSError
deriving DecidableEq, Repr

inductive ListSub | lpush | rpush | lpop | rpop
deriving DecidableEq, Repr

inductive SetSub | sadd | srem | smembers
deriving DecidableEq, Repr

/-- Type `WorkerDataType` (types/OctopusTypes.ts): the message dispatched on. -/
inductive WorkerMsg where
  | set (key : String) (value : JSValue)
  | get (key : String)
  | del (key : String)
  | exists (key : String)
  | incr (key : String)
  | decr (key : String)
  | expire (key : String) (seconds : Nat)
  | ttl (key : String)
  | listOp (sub : ListSub) (key : String) (value : String)
  | setOp (sub : SetSub) (key : String) (value : String)
  | persist (key : String)
deriving DecidableEq, Repr

/-- The worker's private state: `store` and `ttlStore`.  A `ttlStore`
entry models the pending `Timeout` handle by its `_idleTimeout`
(the delay in ms used by the `ttl` case of the handler). -/
structure WorkerStore where
  store : List (String × JSValue)
  ttlStore : List (String × Nat)
deriving DecidableEq, Repr

namespace WorkerScript

/-- The `parentPort.on('message', ...)` handler of
`src/core/multi-threaded/worker/worker.ts`, case by case.  A returned
`.error .typeError` models an uncaught runtime `TypeError` (calling
`unshift`/`push`/`add` on a value that does not have that method): no
result is posted and the throw happens before any mutation of the entry.
The `switch` has no `persist` case, so a `persist` message leaves
`result` at its declared `undefined` value. -/
def handleMessage (s : WorkerStore) : WorkerMsg → Except JSError (JSResult × WorkerStore)
  | .set k v => .ok (.val (.str "OK"), { s with store := aset s.store k v })
  | .get k =>
      match alookup s.store k with
      | some v => .ok (if v.truthy then .val v else .nullv, s)
      | none => .ok (.nullv, s)
  | .del k =>
      .ok (.val (.num (if ahas s.store k then 1 else 0)),
           { s with store := adel s.store k })
  | .exists k => .ok (.val (.num (if ahas s.store k then 1 else 0)), s)
  | .incr k =>
      match alookup s.store k with
      | some (.num n) =>
          .ok (.val (.num (n + 1)), { s with store := aset s.store k (.num (n + 1)) })
      | some _ => .ok (.val (.str "ERR value is not an integer"), s)
      | none => .ok (.val (.num 1), { s with store := aset s.store k (.num 1) })
  | .decr k =>
      match alookup s.store k with
      | some (.num n) =>
          .ok (.val (.num (n - 1)), { s with store := aset s.store k (.num (n - 1)) })
      | some _ => .ok (.val (.str "ERR value is not an integer"), s)
      | none => .ok (.val (.num (-1)), { s with store := aset s.store k (.num (-1)) })
  | .expire k seconds =>
      if ahas s.store k then
        -- clearTimeout of any previous handle, then a fresh Timeout with
        -- _idleTimeout = seconds * 1000
        .ok (.val (.num 1), { s with ttlStore := aset s.ttlStore k (seconds * 1000) })
      else .ok (.val (.num 0), s)
  | .ttl k =>
      match alookup s.ttlStore k with
      | some d => .ok (.val (.num (((d : Int) + 999) / 1000)), s)
      | none => .ok (.val (.num (-1)), s)
  | .listOp .lpush k v =>
      let st := if ahas s.store k then s.store else aset s.store k (.list [])
      match alookup st k with
      | some (.list xs) =>
          .ok (.val (.num ((xs.length : Int) + 1)),
               { s with store := aset st k (.list (v :: xs)) })
      | _ => .error .typeError
  | .listOp .rpush k v =>
      let st := if ahas s.store k then s.store else aset s.store k (.list [])
      match alookup st k with
      | some (.list xs) =>
          .ok (.val (.num ((xs.length : Int) + 1)),
               { s with store := aset st k (.list (xs ++ [v])) })
      | _ => .error .typeError
  | .listOp .lpop k _ =>
      match alookup s.store k with
      | some (.list []) => .ok (.undef, s)
      | some (.list (e :: rest)) =>
          .ok (.val (.str e), { s with store := aset s.store k (.list rest) })
      | _ => .ok (.nullv, s)
  | .listOp .rpop k _ =>
      match alookup s.store k with
      | some (.list []) => .ok (.undef, s)
      | some (.list (e :: rest)) =>
          .ok (.val (.str ((e :: rest).getLast (by simp))),
               { s with store := aset s.store k (.list ((e :: rest).dropLast)) })
      | _ => .ok (.nullv, s)
  | .setOp .sadd k v =>
      let st := if ahas s.store k then s.store else aset s.store k (.setv [])
      match alookup st k with
      | some (.setv xs) =>
          let xs2 := if v ∈ xs then xs else xs ++ [v]
          .ok (.val (.num (xs2.length : Int)), { s with store := aset st k (.setv xs2) })
      | _ => .error .typeError
  | .setOp .srem k v =>
      match alookup s.store k with
      | some (.setv xs) =>
          .ok (.val (.num (if v ∈ xs then 1 else 0)),
               { s with store := aset s.store k (.setv (xs.erase v)) })
      | _ => .ok (.val (.num 0), s)
  | .setOp .smembers k _ =>
      match alookup s.store k with
      | some (.setv xs) => .ok (.val (.list xs), s)
      | _ => .ok (.val (.list []), s)
  | .persist _ => .ok (.undef, s)

end WorkerScript

/-! ## KVStore (src/core/store.ts)

The single-threaded `KVStore` keeps a `ttlStore: Map<string, number>` of
absolute deadlines (ms) and checks them lazily on every read path. -/

structure KVState where
  store : List (String × String)
  ttlStore : List (String × Int)
deriving DecidableEq, Repr

namespace KVStore

/-- Method `checkExpiration`: `if (expireAt && Date.now() > expireAt)` delete the
entry and its TTL.  The JS truthiness guard makes a (degenerate) deadline
of `0` never fire. -/
def checkExpiration (s : KVState) (now : Int) (k : String) : KVState :=
  match alookup s.ttlStore k with
  | some expireAt =>
      if expireAt ≠ 0 ∧ now > expireAt then
        { store := adel s.store k, ttlStore := adel s.ttlStore k }
      else s
  | none => s

/-- Method `get`: check expiration, then `store.get(key) || null`. -/
def get (s : KVState) (now : Int) (k : String) : Option String × KVState :=
  let s₁ := checkExpiration s now k
  match alookup s₁.store k with
  | some v => (if v = "" then none else some v, s₁)
  | none => (none, s₁)

/-- Method `exists`: check expiration, then `store.has(key) ? 1 : 0`. -/
def existsCmd (s : KVState) (now : Int) (k : String) : Int × KVState :=
  let s₁ := checkExpiration s now k
  (if ahas s₁.store k then 1 else 0, s₁)

/-- Method `ttl`: check expiration; `-1` when no (truthy) deadline remains,
otherwise `Math.floor((expireAt - now)/1000)` clamped at `-1`. -/
def ttl (s : KVState) (now : Int) (k : String) : Int × KVState :=
  let s₁ := checkExpiration s now k
  match alookup s₁.ttlStore k with
  | some expireAt =>
      if expireAt = 0 then (-1, s₁)
      else
        let t := Int.fdiv (expireAt - now) 1000
        (if t ≥ 0 then t else -1, s₁)
  | none => (-1, s₁)

end KVStore

/-! ## OCC handler (OCCHandler.ts)

`VersionedData` (documented in dcoumentation/OCC.md: an integer `version`
plus the record's own fields) is modelled with a `version` and a `state`
field standing for the mutable payload of the generic `T`.  An operation
`(data: T) => Promise<void>` mutates the record in place and either
completes or throws; it is modelled as a function returning the mutated
record together with a success flag (in-place mutations persist even when
the operation subsequently throws). -/

structure VersionedData where
  version : Int
  state : String
deriving DecidableEq, Repr

namespace OCCHandler

/-- Method `validateVersion`: `data ? data.version === expectedVersion : false`. -/
def validateVersion (data : Option VersionedData) (expectedVersion : Int) : Bool :=
  match data with
  | some d => d.version = expectedVersion
  | none => false

/-- Method `incrementVersion`: `if (data) data.version += 1`. -/
def incrementVersion (data : Option VersionedData) : Option VersionedData :=
  match data with
  | some d => some { d with version := d.version + 1 }
  | none => none

/-- Method `performOperation` exactly as written in the source.  On a failed
version check the code executes `Promise.reject(...)` WITHOUT `return`,
`throw` or `await`: the rejected promise floats and control falls
through, so the operation is still invoked.  Likewise the `catch` block
floats its `Promise.reject`, so the method always resolves; the version
is incremented only when the operation completed without throwing. -/
def performOperation (data : Option VersionedData) (expectedVersion : Int)
    (operation : VersionedData → VersionedData × Bool) :
    Except String (Option VersionedData) :=
  -- if (!this.validateVersion(...)) { console.error(...); Promise.reject(...) }
  -- (floating rejection: execution continues)
  let _conflict := ¬ validateVersion data expectedVersion
  match data with
  | none => .ok none    -- operation(undefined) throws and is swallowed by the catch
  | some d =>
      let (d₂, success) := operation d
      if success then .ok (incrementVersion (some d₂))
      else .ok (some d₂)   -- catch: console.error + floating Promise.reject

end OCCHandler

/-! ## Transaction (dcoumentation/distributed-systems/Start.md)

Operations (`() => Promise<any>` thunks) are modelled by their outcome:
`.ok ()` for a resolving operation, `.error e` for one that rejects with
error `e`.  The `finally { this.mutex.unlock() }` only releases the
transaction's internal mutex and is orthogonal to the control flow
modelled here. -/

structure Transaction where
  operations : List (Except String Unit)
  isCommitted : Bool
deriving Repr

namespace TransactionModel

/-- Sequential execution of the op list: the first rejection aborts the
loop and yields its error. -/
def runOps : List (Except String Unit) → Option String
  | [] => none
  | .ok _ :: rest => runOps rest
  | .error e :: _ => some e

/-- Method `rollback`: throws once `isCommitted` is set, else clears the op list. -/
def rollback (t : Transaction) : Except String Transaction :=
  if t.isCommitted then .error "Cannot roll back after commit"
  else .ok { t with operations := [] }

/-- Method `commit`: sets `isCommitted = true` BEFORE executing the operations;
on a failing operation the `catch` runs `await this.rollback()` and only
then `throw error` — but `rollback` itself throws because `isCommitted`
is already `true`, so the rollback error propagates and the original
`throw error` is never reached. -/
def commit (t : Transaction) : Except String Transaction :=
  if t.isCommitted then .error "Transaction already committed"
  else
    let t₁ : Transaction := { t with isCommitted := true }
    match runOps t₁.operations with
    | none => .ok t₁
    | some e =>
        match rollback t₁ with
        | .error e₂ => .error e₂   -- the rethrow of `error` is dead code
        | .ok _ => .error e

end TransactionModel

/-! ## ReentrantOctopusMutex (queue/ReentrantOctopusMutex.ts, the variant
with the `locked` flag)

State is the quadruple of fields; a thread is identified by its numeric
id.  `lock` either acquires immediately (returning the new state) or
suspends the caller in the FIFO queue; `unlock` throws before touching
any state when the caller is not the current owner. -/

structure RMutex where
  queue : List Nat
  locked : Bool
  lockCount : List (Nat × Nat)
  currentOwner : Option Nat
deriving DecidableEq, Repr

inductive MutexError where
  | notOwner : MutexError
deriving DecidableEq, Repr

namespace ReentrantOctopusMutex

def init : RMutex := ⟨[], false, [], none⟩

inductive LockResult where
  | acquired : RMutex → LockResult
  | suspended : RMutex → LockResult
deriving DecidableEq, Repr

def LockResult.state : LockResult → RMutex
  | .acquired s => s
  | .suspended s => s

/-- Method `lock(threadId)`: reentrant fast path, FIFO suspension when held by
another thread, immediate acquisition when free. -/
def lock (s : RMutex) (tid : Nat) : LockResult :=
  if s.currentOwner = some tid then
    .acquired { s with lockCount := aset s.lockCount tid ((alookup s.lockCount tid).getD 0 + 1) }
  else if s.locked then
    .suspended { s with queue := s.queue ++ [tid] }
  else
    .acquired { s with
      locked := true
      currentOwner := some tid
      lockCount := aset s.lockCount tid ((alookup s.lockCount tid).getD 0 + 1) }

/-- Method `unlock(threadId)`: throws `NotOwner` (before any mutation) when the
caller does not own the lock; decrements the count while reentrant; on
the last release hands off to the queue head or frees the mutex. -/
def unlock (s : RMutex) (tid : Nat) : RMutex × Option MutexError :=
  if s.currentOwner ≠ some tid then (s, some .notOwner)
  else
    let currentCount := (alookup s.lockCount tid).getD 0
    if currentCount > 1 then
      ({ s with lockCount := aset s.lockCount tid (currentCount - 1) }, none)
    else
      let s₁ := { s with lockCount := adel s.lockCount tid }
      match s₁.queue with
      | _ :: rest => ({ s₁ with queue := rest }, none)
      | [] => ({ s₁ with locked := false, currentOwner := none }, none)

/-- Iterated `lock` by a single thread (taking the resulting state). -/
def lockN (s : RMutex) (tid : Nat) : Nat → RMutex
  | 0 => s
  | n + 1 => (lock (lockN s tid n) tid).state

/-- Iterated `unlock` by a single thread (taking the resulting state). -/
def unlockN (s : RMutex) (tid : Nat) : Nat → RMutex
  | 0 => s
  | n + 1 => (unlock (unlockN s tid n) tid).1

end ReentrantOctopusMutex

/-! ## OctupusReentrantMutex (queue/OctopusReentrantMutex.ts)

This variant has no `locked` flag: a `lock()` call by a thread that is
not the current owner ALWAYS executes
`await new Promise(resolve => this.queue.push(resolve))`, even when the
mutex is free.  We model the asynchronous behaviour as a labelled
transition system: `waiting` holds the unresolved promises of suspended
`lock` callers (in queue order); a successful final `unlock` moves the
queue head to `runnable` (its promise is resolved); a `resume` step runs
the continuation of a resolved waiter, which sets `currentOwner` and
bumps its count. -/

structure OMutexState where
  lockedBy : List (Nat × Nat)
  currentOwner : Option Nat
  waiting : List Nat
  runnable : List Nat
deriving DecidableEq, Repr

namespace OctupusReentrantMutex

def free : OMutexState := ⟨[], none, [], []⟩

/-- One asynchronous step of the mutex: a `lock` call, the resumption of
a resolved waiter, or an `unlock` call (each `unlock` branch mirrors the
source: throw for non-owners, reentrant decrement, hand-off to the queue
head, or reset of `currentOwner`). -/
inductive Step : OMutexState → OMutexState → Prop where
  | lockReentrant (s : OMutexState) (t : Nat) :
      s.currentOwner = some t →
      Step s { s with lockedBy := aset s.lockedBy t ((alookup s.lockedBy t).getD 0 + 1) }
  | lockSuspend (s : OMutexState) (t : Nat) :
      s.currentOwner ≠ some t →
      Step s { s with waiting := s.waiting ++ [t] }
  | lockResume (s : OMutexState) (t : Nat) (rest : List Nat) :
      s.runnable = t :: rest →
      Step s { s with
        runnable := rest
        currentOwner := some t
        lockedBy := aset s.lockedBy t ((alookup s.lockedBy t).getD 0 + 1) }
  | unlockNotOwner (s : OMutexState) (t : Nat) :
      s.currentOwner ≠ some t →
      Step s s
  | unlockReentrant (s : OMutexState) (t : Nat) :
      s.currentOwner = some t →
      (alookup s.lockedBy t).getD 0 > 1 →
      Step s { s with lockedBy := aset s.lockedBy t ((alookup s.lockedBy t).getD 0 - 1) }
  | unlockHandoff (s : OMutexState) (t w : Nat) (rest : List Nat) :
      s.currentOwner = some t →
      ¬ (alookup s.lockedBy t).getD 0 > 1 →
      s.waiting = w :: rest →
      Step s { s with
        lockedBy := adel s.lockedBy t
        waiting := rest
        runnable := s.runnable ++ [w] }
  | unlockFree (s : OMutexState) (t : Nat) :
      s.currentOwner = some t →
      ¬ (alookup s.lockedBy t).getD 0 > 1 →
      s.waiting = [] →
      Step s { s with lockedBy := adel s.lockedBy t, currentOwner := none }

/-- Reachability along `Step`. -/
def Reaches (s₁ s₂ : OMutexState) : Prop := Relation.ReflTransGen Step s₁ s₂

/-- The key invariant once the mutex is ownerless with no resolved
waiter: no step can ever produce an owner or resolve a waiter, and a
thread already suspended stays suspended. -/
def Stuck (t : Nat) (s : OMutexState) : Prop :=
  s.currentOwner = none ∧ s.runnable = [] ∧ t ∈ s.waiting

theorem stuck_step {t : Nat} {s₁ s₂ : OMutexState}
    (hs : Stuck t s₁) (hstep : Step s₁ s₂) : Stuck t s₂ := by
  obtain ⟨hown, hrun, hmem⟩ := hs
  cases hstep with
  | lockReentrant u hu => simp [hown] at hu
  | lockSuspend u hu =>
      exact ⟨hown, hrun, by simpa using Or.inl hmem⟩
  | lockResume u rest hu => simp [hrun] at hu
  | unlockNotOwner u hu => exact ⟨hown, hrun, hmem⟩
  | unlockReentrant u hu hc => simp [hown] at hu
  | unlockHandoff u w rest hu hc hw => simp [hown] at hu
  | unlockFree u hu hc hw => simp [hown] at hu

theorem stuck_reaches {t : Nat} {s₁ s₂ : OMutexState}
    (hs : Stuck t s₁) (hr : Reaches s₁ s₂) : Stuck t s₂ := by
  induction hr with
  | refl => exact hs
  | tail _ hstep ih => exact stuck_step ih hstep

end OctupusReentrantMutex

/-! ## BinaryHeapPriorityQueue (queue/BinaryHeapPriorityQueue.ts)

The backing array `heap: HeapNode<T>[]` is modelled as a list indexed
as the source indexes the array: `parent(i) = (i-1)/2` (Nat division),
children `2i+1` and `2i+2`.  The comparison is strictly on `priority`
(min-heap); `executeAt` plays no role in it. -/

structure HeapNode (T : Type) where
  task : T
  priority : Int
deriving DecidableEq, Repr

namespace BinaryHeapPriorityQueue

variable {T : Type} {α : Type}

/-- Method `compare(a, b)`: `a.priority < b.priority`. -/
def compare (a b : HeapNode T) : Bool := a.priority < b.priority

/-- Priority stored at index `i` (`0` as the junk value out of range;
every use below is guarded by a bound, as in the source call sites). -/
def priAt (l : List (HeapNode T)) (i : Nat) : Int :=
  match l[i]? with
  | some n => n.priority
  | none => 0

/-- Method `swap(i, j)`: the simultaneous assignment
`[heap[i], heap[j]] = [heap[j], heap[i]]`. -/
def swap (l : List α) (i j : Nat) : List α :=
  match l[i]?, l[j]? with
  | some a, some b => (l.set i b).set j a
  | _, _ => l

/-- Method `heapifyUp(index)`: sift the node at `index` towards the root while
it compares strictly below its parent.  The bound `i + 1 < l.length` is
only a totalization: the source runs this loop on indices that are
always in range. -/
def heapifyUp (l : List (HeapNode T)) : Nat → List (HeapNode T)
  | 0 => l
  | i + 1 =>
      if i + 1 < l.length ∧ priAt l (i + 1) < priAt l (i / 2) then
        heapifyUp (swap l (i + 1) (i / 2)) (i / 2)
      else l
termination_by i => i
decreasing_by omega

theorem swap_length (l : List α) (i j : Nat) : (swap l i j).length = l.length := by
  unfold swap
  rcases h₁ : l[i]? with _ | a <;> rcases h₂ : l[j]? with _ | b <;> simp

/-- Index `smallestIdx` is the index selected by one pass of the
`heapifyDown` loop body (left/right child bound checks and strict
comparisons exactly as in the source). -/
def smallestIdx (l : List (HeapNode T)) (i : Nat) : Nat :=
  let left := 2 * i + 1
  let right := 2 * i + 2
  let s₁ := if left < l.length ∧ priAt l left < priAt l i then left else i
  if right < l.length ∧ priAt l right < priAt l s₁ then right else s₁

theorem smallestIdx_cases (l : List (HeapNode T)) (i : Nat) :
    smallestIdx l i = i ∨
      (i < smallestIdx l i ∧ smallestIdx l i < l.length) := by
  simp only [smallestIdx]
  by_cases h₁ : 2 * i + 1 < l.length ∧ priAt l (2 * i + 1) < priAt l i
  · rw [if_pos h₁]
    by_cases h₂ : 2 * i + 2 < l.length ∧ priAt l (2 * i + 2) < priAt l (2 * i + 1)
    · rw [if_pos h₂]
      exact Or.inr ⟨by omega, h₂.1⟩
    · rw [if_neg h₂]
      exact Or.inr ⟨by omega, h₁.1⟩
  · rw [if_neg h₁]
    by_cases h₂ : 2 * i + 2 < l.length ∧ priAt l (2 * i + 2) < priAt l i
    · rw [if_pos h₂]
      exact Or.inr ⟨by omega, h₂.1⟩
    · rw [if_neg h₂]
      exact Or.inl rfl

/-- Method `heapifyDown(index)`: sift the node at `index` down, swapping with
its smallest child while one compares strictly below it. -/
def heapifyDown (l : List (HeapNode T)) (i : Nat) : List (HeapNode T) :=
  if _ : smallestIdx l i ≠ i then
    heapifyDown (swap l i (smallestIdx l i)) (smallestIdx l i)
  else l
termination_by l.length - i
decreasing_by
  rename_i hne
  have hc := smallestIdx_cases l i
  simp only [swap_length]
  omega

/-- Method `enqueue(task, priority)`: push then `heapifyUp(length - 1)`. -/
def enqueue (l : List (HeapNode T)) (task : T) (priority : Int) : List (HeapNode T) :=
  heapifyUp (l ++ [⟨task, priority⟩]) l.length

/-- Method `dequeue()`: `undefined` on empty; pop on a singleton; otherwise
return the root, move the popped last element to the root and
`heapifyDown(0)`. -/
def dequeue : List (HeapNode T) → Option T × List (HeapNode T)
  | [] => (none, [])
  | [a] => (some a.task, [])
  | a :: b :: rest =>
      (some a.task,
       heapifyDown (((a :: b :: rest).dropLast).set 0
         ((a :: b :: rest).getLast (by simp))) 0)

/-- Method `peek()`: the root's task, if any. -/
def peek : List (HeapNode T) → Option T
  | [] => none
  | a :: _ => some a.task

/-- Method `size()`: the backing array's length. -/
def size (l : List (HeapNode T)) : Nat := l.length

/-- The binary min-heap invariant of the backing array. -/
def IsHeap (l : List (HeapNode T)) : Prop :=
  ∀ i, 0 < i → i < l.length → priAt l ((i - 1) / 2) ≤ priAt l i

/-! ### Lemmas about `swap` -/

theorem getElem?_swap_other (l : List α) {i j k : Nat} (hki : k ≠ i) (hkj : k ≠ j) :
    (swap l i j)[k]? = l[k]? := by
  unfold swap
  rcases h₁ : l[i]? with _ | a <;> rcases h₂ : l[j]? with _ | b <;> try rfl
  rw [List.getElem?_set_ne (Ne.symm hkj), List.getElem?_set_ne (Ne.symm hki)]

theorem getElem?_swap_fst (l : List α) {i j : Nat} (hi : i < l.length)
    (hj : j < l.length) : (swap l i j)[i]? = l[j]? := by
  have h₁ : l[i]? = some (l.get ⟨i, hi⟩) := List.getElem?_eq_getElem hi
  have h₂ : l[j]? = some (l.get ⟨j, hj⟩) := List.getElem?_eq_getElem hj
  unfold swap
  simp only [h₁, h₂]
  by_cases hij : j = i
  · subst hij
    rw [List.getElem?_set_self (by simpa using hi)]
  · rw [List.getElem?_set_ne hij, List.getElem?_set_self hi]

theorem getElem?_swap_snd (l : List α) {i j : Nat} (hi : i < l.length)
    (hj : j < l.length) : (swap l i j)[j]? = l[i]? := by
  have h₁ : l[i]? = some (l.get ⟨i, hi⟩) := List.getElem?_eq_getElem hi
  have h₂ : l[j]? = some (l.get ⟨j, hj⟩) := List.getElem?_eq_getElem hj
  unfold swap
  simp only [h₁, h₂]
  rw [List.getElem?_set_self (by simpa using hj)]

theorem priAt_swap_other (l : List (HeapNode T)) {i j k : Nat}
    (hki : k ≠ i) (hkj : k ≠ j) : priAt (swap l i j) k = priAt l k := by
  unfold priAt
  rw [getElem?_swap_other l hki hkj]

theorem priAt_swap_fst (l : List (HeapNode T)) {i j : Nat} (hi : i < l.length)
    (hj : j < l.length) : priAt (swap l i j) i = priAt l j := by
  unfold priAt
  rw [getElem?_swap_fst l hi hj]

theorem priAt_swap_snd (l : List (HeapNode T)) {i j : Nat} (hi : i < l.length)
    (hj : j < l.length) : priAt (swap l i j) j = priAt l i := by
  unfold priAt
  rw [getElem?_swap_snd l hi hj]

theorem perm_cons_set {xs : List α} {k : Nat} {a b : α} (h : xs[k]? = some b) :
    List.Perm (b :: xs.set k a) (a :: xs) := by
  induction xs generalizing k with
  | nil => simp at h
  | cons x t ih =>
      cases k with
      | zero =>
          simp only [List.getElem?_cons_zero, Option.some_inj] at h
          subst h
          exact List.Perm.swap a x t
      | succ k =>
          simp only [List.getElem?_cons_succ] at h
          exact (List.Perm.swap x b _).trans
            (((ih h).cons x).trans (List.Perm.swap a x t))

theorem set_set_perm (l : List α) (i j : Nat) (a b : α)
    (h₁ : l[i]? = some a) (h₂ : l[j]? = some b) :
    List.Perm ((l.set i b).set j a) l := by
  induction l generalizing i j with
  | nil => simp at h₁
  | cons x t ih =>
      cases i with
      | zero =>
          simp only [List.getElem?_cons_zero, Option.some_inj] at h₁
          subst h₁
          cases j with
          | zero =>
              simp only [List.getElem?_cons_zero, Option.some_inj] at h₂
              subst h₂
              simp
          | succ j =>
              simp only [List.getElem?_cons_succ] at h₂
              simpa using @perm_cons_set _ t j x b h₂
      | succ i =>
          simp only [List.getElem?_cons_succ] at h₁
          cases j with
          | zero =>
              simp only [List.getElem?_cons_zero, Option.some_inj] at h₂
              subst h₂
              simpa using @perm_cons_set _ t i x a h₁
          | succ j =>
              simp only [List.getElem?_cons_succ] at h₂
              simpa using (ih i j h₁ h₂).cons x

theorem swap_perm (l : List α) (i j : Nat) : List.Perm (swap l i j) l := by
  unfold swap
  rcases h₁ : l[i]? with _ | a <;> rcases h₂ : l[j]? with _ | b <;>
    first
      | exact List.Perm.refl _
      | exact set_set_perm l i j a b h₁ h₂

/-! ### `heapifyUp` restores the heap invariant -/

theorem heapifyUp_perm (l : List (HeapNode T)) (i : Nat) :
    List.Perm (heapifyUp l i) l := by
  induction i using Nat.strong_induction_on generalizing l with
  | _ i ih =>
      match i with
      | 0 =>
          rw [heapifyUp]
      | k + 1 =>
          rw [heapifyUp]
          split
          · exact (ih (k / 2) (by omega) _).trans (swap_perm l (k + 1) (k / 2))
          · exact List.Perm.refl l

theorem heapifyUp_length (l : List (HeapNode T)) (i : Nat) :
    (heapifyUp l i).length = l.length :=
  (heapifyUp_perm l i).length_eq

/-- The array is a heap except possibly on the edge into index `i`, and
the value at `i`'s parent already bounds `i`'s children (the sift-up
invariant). -/
def AlmostUp (l : List (HeapNode T)) (i : Nat) : Prop :=
  (∀ j, 0 < j → j < l.length → j ≠ i → priAt l ((j - 1) / 2) ≤ priAt l j) ∧
  (∀ j, 0 < j → j < l.length → (j - 1) / 2 = i → 0 < i →
    priAt l ((i - 1) / 2) ≤ priAt l j)

theorem almostUp_swap (l : List (HeapNode T)) (k : Nat)
    (hlen : k + 1 < l.length) (h : AlmostUp l (k + 1))
    (hviol : priAt l (k + 1) < priAt l (k / 2)) :
    AlmostUp (swap l (k + 1) (k / 2)) (k / 2) := by
  obtain ⟨h₁, h₂⟩ := h
  have hplen : k / 2 < l.length := by omega
  constructor
  · intro j hj0 hjlen hjp
    rw [swap_length] at hjlen
    by_cases hji : j = k + 1
    · subst hji
      have hpar : (k + 1 - 1) / 2 = k / 2 := by omega
      rw [hpar, priAt_swap_snd l hlen hplen, priAt_swap_fst l hlen hplen]
      exact hviol.le
    · rw [priAt_swap_other l hji hjp]
      by_cases hpj : (j - 1) / 2 = k + 1
      · rw [hpj, priAt_swap_fst l hlen hplen]
        have := h₂ j hj0 hjlen hpj (by omega)
        simpa using this
      · by_cases hpp : (j - 1) / 2 = k / 2
        · rw [hpp, priAt_swap_snd l hlen hplen]
          have := h₁ j hj0 hjlen hji
          rw [hpp] at this
          exact le_trans hviol.le this
        · rw [priAt_swap_other l hpj hpp]
          exact h₁ j hj0 hjlen hji
  · intro j hj0 hjlen hpar hp0
    rw [swap_length] at hjlen
    have hpp1 : (k / 2 - 1) / 2 ≠ k + 1 := by omega
    have hpp2 : (k / 2 - 1) / 2 ≠ k / 2 := by omega
    rw [priAt_swap_other l hpp1 hpp2]
    by_cases hji : j = k + 1
    · subst hji
      rw [priAt_swap_fst l hlen hplen]
      exact h₁ (k / 2) hp0 hplen (by omega)
    · have hjp : j ≠ k / 2 := by omega
      rw [priAt_swap_other l hji hjp]
      have ha := h₁ (k / 2) hp0 hplen (by omega)
      have hb := h₁ j hj0 hjlen hji
      rw [hpar] at hb
      exact le_trans ha hb

theorem heapifyUp_isHeap (l : List (HeapNode T)) (i : Nat) (h : AlmostUp l i) :
    IsHeap (heapifyUp l i) := by
  induction i using Nat.strong_induction_on generalizing l with
  | _ i ih =>
      match i with
      | 0 =>
          rw [heapifyUp]
          intro j hj0 hjlen
          exact h.1 j hj0 hjlen (by omega)
      | k + 1 =>
          rw [heapifyUp]
          split <;> rename_i hcond
          · exact ih (k / 2) (by omega) _ (almostUp_swap l k hcond.1 h hcond.2)
          · intro j hj0 hjlen
            by_cases hji : j = k + 1
            · subst hji
              have hnv : ¬ priAt l (k + 1) < priAt l (k / 2) := fun hv =>
                hcond ⟨hjlen, hv⟩
              have := not_lt.mp hnv
              simpa using this
            · exact h.1 j hj0 hjlen hji

theorem priAt_append_lt (l : List (HeapNode T)) (n : HeapNode T) {x : Nat}
    (hx : x < l.length) : priAt (l ++ [n]) x = priAt l x := by
  unfold priAt
  rw [List.getElem?_append_left hx]

theorem almostUp_append (l : List (HeapNode T)) (n : HeapNode T)
    (h : IsHeap l) : AlmostUp (l ++ [n]) l.length := by
  constructor
  · intro j hj0 hjlen hji
    have hjl : j < l.length := by
      simp only [List.length_append, List.length_cons, List.length_nil] at hjlen
      omega
    rw [priAt_append_lt l n hjl, priAt_append_lt l n (by omega : (j - 1) / 2 < l.length)]
    exact h j hj0 hjl
  · intro j hj0 hjlen hpar h0
    simp only [List.length_append, List.length_cons, List.length_nil] at hjlen
    omega

theorem enqueue_perm (l : List (HeapNode T)) (t : T) (p : Int) :
    List.Perm (enqueue l t p) (l ++ [⟨t, p⟩]) :=
  heapifyUp_perm _ _

theorem enqueue_isHeap (l : List (HeapNode T)) (t : T) (p : Int)
    (h : IsHeap l) : IsHeap (enqueue l t p) :=
  heapifyUp_isHeap _ _ (almostUp_append l ⟨t, p⟩ h)

/-! ### `heapifyDown` restores the heap invariant -/

theorem smallestIdx_spec (l : List (HeapNode T)) (i : Nat) :
    (smallestIdx l i = i ∨ smallestIdx l i = 2 * i + 1 ∨
      smallestIdx l i = 2 * i + 2) ∧
    priAt l (smallestIdx l i) ≤ priAt l i ∧
    (2 * i + 1 < l.length → priAt l (smallestIdx l i) ≤ priAt l (2 * i + 1)) ∧
    (2 * i + 2 < l.length → priAt l (smallestIdx l i) ≤ priAt l (2 * i + 2)) := by
  simp only [smallestIdx]
  by_cases h₁ : 2 * i + 1 < l.length ∧ priAt l (2 * i + 1) < priAt l i
  · rw [if_pos h₁]
    by_cases h₂ : 2 * i + 2 < l.length ∧ priAt l (2 * i + 2) < priAt l (2 * i + 1)
    · rw [if_pos h₂]
      obtain ⟨hb₁, hv₁⟩ := h₁
      obtain ⟨hb₂, hv₂⟩ := h₂
      exact ⟨by omega, by omega, fun _ => by omega, fun _ => by omega⟩
    · rw [if_neg h₂]
      obtain ⟨hb₁, hv₁⟩ := h₁
      refine ⟨by omega, by omega, fun _ => by omega, fun hb₂ => ?_⟩
      have : ¬ priAt l (2 * i + 2) < priAt l (2 * i + 1) := fun hv => h₂ ⟨hb₂, hv⟩
      omega
  · rw [if_neg h₁]
    by_cases h₂ : 2 * i + 2 < l.length ∧ priAt l (2 * i + 2) < priAt l i
    · rw [if_pos h₂]
      obtain ⟨hb₂, hv₂⟩ := h₂
      refine ⟨by omega, by omega, fun hb₁ => ?_, fun _ => by omega⟩
      have : ¬ priAt l (2 * i + 1) < priAt l i := fun hv => h₁ ⟨hb₁, hv⟩
      omega
    · rw [if_neg h₂]
      refine ⟨by omega, by omega, fun hb₁ => ?_, fun hb₂ => ?_⟩
      · have : ¬ priAt l (2 * i + 1) < priAt l i := fun hv => h₁ ⟨hb₁, hv⟩
        omega
      · have : ¬ priAt l (2 * i + 2) < priAt l i := fun hv => h₂ ⟨hb₂, hv⟩
        omega

/-- The array is a heap except possibly on the edges out of index `i`,
and the value at `i`'s parent already bounds `i`'s children (the
sift-down invariant). -/
def AlmostDown (l : List (HeapNode T)) (i : Nat) : Prop :=
  (∀ j, 0 < j → j < l.length → (j - 1) / 2 ≠ i → priAt l ((j - 1) / 2) ≤ priAt l j) ∧
  (∀ j, 0 < j → j < l.length → (j - 1) / 2 = i → 0 < i →
    priAt l ((i - 1) / 2) ≤ priAt l j)

theorem almostDown_swap (l : List (HeapNode T)) (i s : Nat)
    (hs : smallestIdx l i = s) (hne : s ≠ i) (h : AlmostDown l i) :
    AlmostDown (swap l i s) s := by
  obtain ⟨h₁, h₂⟩ := h
  have hc := smallestIdx_cases l i
  rw [hs] at hc
  have his : i < s := by omega
  have hslen : s < l.length := by omega
  have hilen : i < l.length := by omega
  have hspec := smallestIdx_spec l i
  rw [hs] at hspec
  have hshape : s = 2 * i + 1 ∨ s = 2 * i + 2 := by
    rcases hspec.1 with h | h | h
    · omega
    · omega
    · omega
  have hpars : (s - 1) / 2 = i := by omega
  constructor
  · intro j hj0 hjlen hjp
    rw [swap_length] at hjlen
    by_cases hjs : j = s
    · subst hjs
      rw [hpars, priAt_swap_fst l hilen hslen, priAt_swap_snd l hilen hslen]
      exact hspec.2.1
    · by_cases hji : j = i
      · subst hji
        have hpi1 : (j - 1) / 2 ≠ j := by omega
        have hpi2 : (j - 1) / 2 ≠ s := by omega
        rw [priAt_swap_other l hpi1 hpi2, priAt_swap_fst l hilen hslen]
        exact h₂ s (by omega) hslen hpars hj0
      · rw [priAt_swap_other l hji hjs]
        by_cases hpj : (j - 1) / 2 = i
        · rw [hpj, priAt_swap_fst l hilen hslen]
          have hjshape : j = 2 * i + 1 ∨ j = 2 * i + 2 := by omega
          rcases hjshape with hj | hj
          · subst hj
            exact hspec.2.2.1 hjlen
          · subst hj
            exact hspec.2.2.2 hjlen
        · rw [priAt_swap_other l hpj hjp]
          exact h₁ j hj0 hjlen hpj
  · intro j hj0 hjlen hpar hs0
    rw [swap_length] at hjlen
    have hji : j ≠ i := by omega
    have hjs : j ≠ s := by omega
    rw [hpars, priAt_swap_fst l hilen hslen, priAt_swap_other l hji hjs]
    have := h₁ j hj0 hjlen (by omega)
    rw [hpar] at this
    exact this

theorem heapifyDown_isHeap_fuel :
    ∀ (fuel : Nat) (l : List (HeapNode T)) (i : Nat), l.length - i ≤ fuel →
      AlmostDown l i → IsHeap (heapifyDown l i) := by
  intro fuel
  induction fuel with
  | zero =>
      intro l i hle h
      have hsi : smallestIdx l i = i := by
        rcases smallestIdx_cases l i with hc | hc
        · exact hc
        · omega
      rw [heapifyDown, dif_neg (by simp [hsi])]
      intro j hj0 hjlen
      exact h.1 j hj0 hjlen (by omega)
  | succ n ih =>
      intro l i hle h
      rw [heapifyDown]
      split <;> rename_i hne
      · have hc := smallestIdx_cases l i
        refine ih (swap l i (smallestIdx l i)) (smallestIdx l i) ?_
          (almostDown_swap l i (smallestIdx l i) rfl hne h)
        rw [swap_length]
        omega
      · push_neg at hne
        intro j hj0 hjlen
        by_cases hpj : (j - 1) / 2 = i
        · have hspec := smallestIdx_spec l i
          rw [hne] at hspec
          rw [hpj]
          have hjshape : j = 2 * i + 1 ∨ j = 2 * i + 2 := by omega
          rcases hjshape with hj | hj
          · subst hj
            exact hspec.2.2.1 hjlen
          · subst hj
            exact hspec.2.2.2 hjlen
        · exact h.1 j hj0 hjlen hpj

theorem heapifyDown_isHeap (l : List (HeapNode T)) (i : Nat)
    (h : AlmostDown l i) : IsHeap (heapifyDown l i) :=
  heapifyDown_isHeap_fuel l.length l i (by omega) h

theorem heapifyDown_perm_fuel :
    ∀ (fuel : Nat) (l : List (HeapNode T)) (i : Nat), l.length - i ≤ fuel →
      List.Perm (heapifyDown l i) l := by
  intro fuel
  induction fuel with
  | zero =>
      intro l i hle
      have hsi : smallestIdx l i = i := by
        rcases smallestIdx_cases l i with hc | hc
        · exact hc
        · omega
      rw [heapifyDown, dif_neg (by simp [hsi])]
  | succ n ih =>
      intro l i hle
      rw [heapifyDown]
      split <;> rename_i hne
      · have hc := smallestIdx_cases l i
        refine (ih (swap l i (smallestIdx l i)) (smallestIdx l i) ?_).trans
          (swap_perm l i (smallestIdx l i))
        rw [swap_length]
        omega
      · exact List.Perm.refl l

theorem heapifyDown_perm (l : List (HeapNode T)) (i : Nat) :
    List.Perm (heapifyDown l i) l :=
  heapifyDown_perm_fuel l.length l i (by omega)

/-! ### The root of a heap is minimal; `dequeue` extracts it -/

theorem priAt_cons_zero (a : HeapNode T) (t : List (HeapNode T)) :
    priAt (a :: t) 0 = a.priority := by
  simp [priAt]

theorem isHeap_root_le (l : List (HeapNode T)) (h : IsHeap l) :
    ∀ i, i < l.length → priAt l 0 ≤ priAt l i := by
  intro i
  induction i using Nat.strong_induction_on with
  | _ i ih =>
      intro hlen
      rcases Nat.eq_zero_or_pos i with h0 | hpos
      · subst h0
        exact le_refl _
      · exact le_trans (ih ((i - 1) / 2) (by omega) (by omega)) (h i hpos hlen)

theorem isHeap_root_le_mem (l : List (HeapNode T)) (h : IsHeap l)
    (n : HeapNode T) (hn : n ∈ l) : priAt l 0 ≤ n.priority := by
  obtain ⟨i, hi⟩ := List.mem_iff_getElem?.mp hn
  obtain ⟨hlt, hget⟩ := List.getElem?_eq_some_iff.mp hi
  have hp : priAt l i = n.priority := by
    unfold priAt
    rw [hi]
  rw [← hp]
  exact isHeap_root_le l h i hlt

theorem dequeue_fst (l : List (HeapNode T)) :
    (dequeue l).1 = l.head?.map (·.task) := by
  match l with
  | [] => rfl
  | [a] => rfl
  | a :: b :: rest => rfl

theorem dequeue_snd_perm (l : List (HeapNode T)) :
    List.Perm (dequeue l).2 l.tail := by
  match l with
  | [] => exact List.Perm.refl _
  | [a] => exact List.Perm.refl _
  | a :: b :: rest =>
      have hne : (b :: rest) ≠ [] := by simp
      have hlast : (a :: b :: rest).getLast (by simp) = (b :: rest).getLast hne :=
        List.getLast_cons hne
      refine (heapifyDown_perm _ 0).trans ?_
      have heq : ((a :: b :: rest).dropLast).set 0 ((a :: b :: rest).getLast (by simp))
          = (a :: b :: rest).getLast (by simp) :: (b :: rest).dropLast := rfl
      rw [heq, hlast]
      have h2 := List.perm_append_singleton ((b :: rest).getLast hne) ((b :: rest).dropLast)
      rw [List.dropLast_concat_getLast hne] at h2
      exact h2.symm

theorem dequeue_isHeap (l : List (HeapNode T)) (h : IsHeap l) :
    IsHeap (dequeue l).2 := by
  match l with
  | [] =>
      intro j hj0 hjlen
      simp [dequeue] at hjlen
  | [a] =>
      intro j hj0 hjlen
      simp [dequeue] at hjlen
  | a :: b :: rest =>
      show IsHeap (heapifyDown (((a :: b :: rest).dropLast).set 0
        ((a :: b :: rest).getLast (by simp))) 0)
      apply heapifyDown_isHeap
      have hpri : ∀ k, 0 < k → k < (a :: b :: rest).length - 1 →
          priAt (((a :: b :: rest).dropLast).set 0
            ((a :: b :: rest).getLast (by simp))) k = priAt (a :: b :: rest) k := by
        intro k hk0 hklen
        unfold priAt
        rw [List.getElem?_set_ne (by omega), List.getElem?_dropLast, if_pos hklen]
      constructor
      · intro j hj0 hjlen hpj
        have hlen2 : (((a :: b :: rest).dropLast).set 0
            ((a :: b :: rest).getLast (by simp))).length
            = (a :: b :: rest).length - 1 := by
          simp
        rw [hlen2] at hjlen
        rw [hpri j hj0 hjlen, hpri ((j - 1) / 2) (by omega) (by omega)]
        exact h j hj0 (by omega)
      · intro j hj0 hjlen hpar h0
        omega

/-- Repeatedly dequeue; the sequence of extracted nodes (the root of
each intermediate heap).  `fuel` bounds the number of extractions. -/
def drainNodes : Nat → List (HeapNode T) → List (HeapNode T)
  | 0, _ => []
  | _ + 1, [] => []
  | fuel + 1, a :: rest => a :: drainNodes fuel (dequeue (a :: rest)).2

theorem drainNodes_perm : ∀ (fuel : Nat) (l : List (HeapNode T)),
    l.length ≤ fuel → List.Perm (drainNodes fuel l) l := by
  intro fuel
  induction fuel with
  | zero =>
      intro l h
      have hnil : l = [] := List.eq_nil_of_length_eq_zero (by omega)
      subst hnil
      exact List.Perm.refl _
  | succ n ih =>
      intro l h
      match l with
      | [] => exact List.Perm.refl _
      | a :: rest =>
          have hd := dequeue_snd_perm (a :: rest)
          have hrec := ih (dequeue (a :: rest)).2 (by
            rw [hd.length_eq]
            simp only [List.length_cons] at h
            simpa using Nat.le_of_succ_le_succ h)
          exact (hrec.trans hd).cons a

theorem drainNodes_mem : ∀ (fuel : Nat) (l : List (HeapNode T)) (x : HeapNode T),
    x ∈ drainNodes fuel l → x ∈ l := by
  intro fuel
  induction fuel with
  | zero =>
      intro l x hx
      simp [drainNodes] at hx
  | succ n ih =>
      intro l x hx
      match l with
      | [] => simp [drainNodes] at hx
      | a :: rest =>
          simp only [drainNodes] at hx
          rcases List.mem_cons.mp hx with hxa | hxd
          · exact hxa ▸ List.mem_cons_self a rest
          · have hx2 := ih _ x hxd
            exact List.mem_cons_of_mem a
              (((dequeue_snd_perm (a :: rest)).mem_iff).mp hx2)

theorem drainNodes_sorted : ∀ (fuel : Nat) (l : List (HeapNode T)), IsHeap l →
    List.Pairwise (fun a b : HeapNode T => a.priority ≤ b.priority)
      (drainNodes fuel l) := by
  intro fuel
  induction fuel with
  | zero =>
      intro l _
      exact List.Pairwise.nil
  | succ n ih =>
      intro l hheap
      match l with
      | [] => exact List.Pairwise.nil
      | a :: rest =>
          simp only [drainNodes]
          refine List.pairwise_cons.mpr ⟨?_, ih _ (dequeue_isHeap (a :: rest) hheap)⟩
          intro x hx
          have hx2 : x ∈ (dequeue (a :: rest)).2 := drainNodes_mem n _ x hx
          have hxl : x ∈ a :: rest :=
            List.mem_cons_of_mem a (((dequeue_snd_perm (a :: rest)).mem_iff).mp hx2)
          have hroot := isHeap_root_le_mem (a :: rest) hheap x hxl
          rw [priAt_cons_zero] at hroot
          exact hroot

end BinaryHeapPriorityQueue

/-! ## AdvancedTaskQueue (heap variant, backed by `BinaryHeapPriorityQueue`
and `ReentrantOctopusMutex`)

`AdvancedTask<T>` = `{task, priority, executeAt}`.  Dedup keys are
`JSON.stringify(task)`; as `JSON.stringify` is a stable structural
encoding, two tasks share a key exactly when they are structurally
equal, so the key set is modelled as a set of tasks themselves. -/

structure AdvancedTask (T : Type) where
  task : T
  priority : Int
  executeAt : Int
deriving DecidableEq, Repr

structure ATQ (T : Type) where
  queue : List (HeapNode (AdvancedTask T))
  taskSet : List T
deriving DecidableEq, Repr

namespace AdvancedTaskQueue

def empty {T : Type} : ATQ T := ⟨[], []⟩

/-- Method `enqueue(task, priority, delay)` with `executeAt = Date.now() + delay`
already computed by the caller: if the digest is present, drop silently;
otherwise `queue.enqueue({task, priority, executeAt}, priority)` and add
the digest. -/
def enqueue [DecidableEq T] (s : ATQ T) (task : T) (priority executeAt : Int) :
    ATQ T :=
  if task ∈ s.taskSet then s
  else
    { queue := BinaryHeapPriorityQueue.enqueue s.queue
        ⟨task, priority, executeAt⟩ priority
      taskSet := s.taskSet ++ [task] }

/-- Method `dequeue()`: pop the heap root; if it is ready (`executeAt <= now`)
remove its digest and return its task, otherwise push it back (with its
priority) and return `undefined`.  An empty heap also returns
`undefined` (JS: `undefined?.executeAt <= now` is false). -/
def dequeue [DecidableEq T] (s : ATQ T) (now : Int) : Option T × ATQ T :=
  match BinaryHeapPriorityQueue.dequeue s.queue with
  | (some t, q₂) =>
      if t.executeAt ≤ now then
        (some t.task, { queue := q₂, taskSet := s.taskSet.erase t.task })
      else
        (none, { s with queue := BinaryHeapPriorityQueue.enqueue q₂ t t.priority })
  | (none, _) => (none, s)

/-- Method `size()`: the heap's length (ready or not). -/
def size {T : Type} (s : ATQ T) : Nat := BinaryHeapPriorityQueue.size s.queue

/-- Repeated `dequeue`, collecting the returned tasks until a `dequeue`
returns `undefined` or `fuel` runs out. -/
def drain [DecidableEq T] (now : Int) : Nat → ATQ T → List T
  | 0, _ => []
  | fuel + 1, s =>
      match dequeue s now with
      | (some x, s₂) => x :: drain now fuel s₂
      | (none, _) => []

/-- Enqueue a batch of `(task, priority, executeAt)` records in order. -/
def enqueueAll [DecidableEq T] (s : ATQ T) : List (AdvancedTask T) → ATQ T
  | [] => s
  | e :: rest => enqueueAll (enqueue s e.task e.priority e.executeAt) rest

theorem enqueueAll_spec [DecidableEq T] :
    ∀ (entries : List (AdvancedTask T)) (s : ATQ T),
      BinaryHeapPriorityQueue.IsHeap s.queue →
      List.Perm s.taskSet (s.queue.map (·.task.task)) →
      (s.taskSet ++ entries.map (·.task)).Nodup →
      BinaryHeapPriorityQueue.IsHeap (enqueueAll s entries).queue ∧
      List.Perm (enqueueAll s entries).queue
        (s.queue ++ entries.map (fun e => ⟨e, e.priority⟩)) ∧
      (enqueueAll s entries).taskSet = s.taskSet ++ entries.map (·.task) := by
  intro entries
  induction entries with
  | nil =>
      intro s h₁ h₂ h₃
      exact ⟨h₁, by simp [enqueueAll], by simp [enqueueAll]⟩
  | cons e rest ih =>
      intro s h₁ h₂ h₃
      have hdisj := (List.nodup_append.mp h₃).2.2
      have hnotin : e.task ∉ s.taskSet := by
        intro hmem
        exact hdisj hmem (by simp)
      have hstep : enqueue s e.task e.priority e.executeAt =
          ⟨BinaryHeapPriorityQueue.enqueue s.queue e e.priority,
           s.taskSet ++ [e.task]⟩ := by
        unfold enqueue
        rw [if_neg hnotin]
      have hq₂ := BinaryHeapPriorityQueue.enqueue_perm s.queue e e.priority
      have hq₂heap := BinaryHeapPriorityQueue.enqueue_isHeap s.queue e e.priority h₁
      have hts₂ : List.Perm (s.taskSet ++ [e.task])
          ((BinaryHeapPriorityQueue.enqueue s.queue
            e e.priority).map (·.task.task)) := by
        refine List.Perm.trans ?_ (List.Perm.map _ hq₂.symm)
        simp only [List.map_append]
        exact h₂.append (List.Perm.refl _)
      have hnodup₂ : ((s.taskSet ++ [e.task]) ++ rest.map (·.task)).Nodup := by
        rw [List.append_assoc]
        simpa using h₃
      have hrec := ih ⟨BinaryHeapPriorityQueue.enqueue s.queue
          e e.priority, s.taskSet ++ [e.task]⟩
        hq₂heap hts₂ hnodup₂
      refine ⟨?_, ?_, ?_⟩
      · show BinaryHeapPriorityQueue.IsHeap (enqueueAll
          (enqueue s e.task e.priority e.executeAt) rest).queue
        rw [hstep]
        exact hrec.1
      · show List.Perm (enqueueAll
          (enqueue s e.task e.priority e.executeAt) rest).queue _
        rw [hstep]
        refine hrec.2.1.trans ?_
        refine List.Perm.trans (hq₂.append (List.Perm.refl _)) ?_
        rw [List.append_assoc]
        simp
      · show (enqueueAll (enqueue s e.task e.priority e.executeAt) rest).taskSet = _
        rw [hstep, hrec.2.2, List.append_assoc]
        simp

theorem dequeue_ready [DecidableEq T] (s : ATQ T) (now : Int)
    (a : HeapNode (AdvancedTask T)) (rest : List (HeapNode (AdvancedTask T)))
    (hq : s.queue = a :: rest) (hready : a.task.executeAt ≤ now) :
    dequeue s now = (some a.task.task,
      ⟨(BinaryHeapPriorityQueue.dequeue (a :: rest)).2,
       s.taskSet.erase a.task.task⟩) := by
  have hfst : (BinaryHeapPriorityQueue.dequeue (a :: rest)).1 = some a.task := by
    rw [BinaryHeapPriorityQueue.dequeue_fst]
    rfl
  unfold dequeue
  rw [hq]
  rcases hdq : BinaryHeapPriorityQueue.dequeue (a :: rest) with ⟨fst, q₂⟩
  rw [hdq] at hfst
  simp only at hfst
  subst hfst
  simp [hready]

theorem drain_eq_drainNodes [DecidableEq T] (now : Int) :
    ∀ (fuel : Nat) (s : ATQ T),
      (∀ n ∈ s.queue, n.task.executeAt ≤ now) →
      drain now fuel s =
        (BinaryHeapPriorityQueue.drainNodes fuel s.queue).map (·.task.task) := by
  intro fuel
  induction fuel with
  | zero =>
      intro s _
      rfl
  | succ n ih =>
      intro s h
      match hq : s.queue with
      | [] =>
          have : dequeue s now = (none, s) := by
            unfold dequeue
            rw [hq]
            rfl
          simp [drain, this, hq, BinaryHeapPriorityQueue.drainNodes]
      | a :: rest =>
          have hready : a.task.executeAt ≤ now := h a (by rw [hq]; simp)
          have hdq := dequeue_ready s now a rest hq hready
          have hmem₂ : ∀ m ∈ (BinaryHeapPriorityQueue.dequeue (a :: rest)).2,
              m.task.executeAt ≤ now := by
            intro m hm
            have : m ∈ rest :=
              ((BinaryHeapPriorityQueue.dequeue_snd_perm (a :: rest)).mem_iff).mp hm
            exact h m (by rw [hq]; exact List.mem_cons_of_mem a this)
          have hrec := ih ⟨(BinaryHeapPriorityQueue.dequeue (a :: rest)).2,
            s.taskSet.erase a.task.task⟩ hmem₂
          simp only [drain, hdq, hrec, hq, BinaryHeapPriorityQueue.drainNodes,
            List.map_cons]

end AdvancedTaskQueue

/-! ## Claims -/

/-- C1: the spec (and the handler's own doc comment) demand that a
version mismatch fail with `Conflict`, not invoke the operation, and
leave the metadata unchanged.  The code floats its `Promise.reject`
without returning, so at metadata `{version := 5}` with expected version
`3` the operation is still invoked (the state mutates to `"busy"`), the
version is incremented to `6`, and `performOperation` resolves without
any error. -/
theorem claim_C1_occ_conflict_bug :
    OCCHandler.performOperation (some ⟨5, "idle"⟩) 3
      (fun d => ({ d with state := "busy" }, true)) =
      .ok (some ⟨6, "busy"⟩) := rfl

/-- C3: the spec demands that a failing operation make `commit` invoke
`rollback` and re-raise the underlying error.  The code sets
`isCommitted` before executing the operations, so the `rollback` invoked
from the `catch` block itself throws `Cannot roll back after commit`,
and that error — not the operation's error `"boom"` — propagates; the
`throw error` statement is dead. -/
theorem claim_C3_commit_error_replaced :
    TransactionModel.commit ⟨[.error "boom"], false⟩ =
      .error "Cannot roll back after commit" := rfl

/-- C8: the spec's `persist` command must cancel the key's TTL and
return 1/0, but the worker's message `switch` has no `persist` case:
for every store state the handler posts `undefined` and leaves both the
store and the `ttlStore` (hence any pending deadline) untouched. -/
theorem claim_C8_persist_missing (s : WorkerStore) (k : String) :
    WorkerScript.handleMessage s (.persist k) = .ok (.undef, s) := rfl

/-- C10: `get` computes `store.get(key) || null`, so any falsy stored
value (the empty string after `set(k, "")`, the number `0` from counter
operations) reads back as `null` while `exists` still answers `1`:
`get(k) = null` does not imply `exists(k) = 0`. -/
theorem claim_C10_get_falsy_null (s : WorkerStore) (k : String) (v : JSValue)
    (hv : alookup s.store k = some v) (hfalsy : v.truthy = false) :
    WorkerScript.handleMessage s (.get k) = .ok (.nullv, s) ∧
    WorkerScript.handleMessage s (.exists k) = .ok (.val (.num 1), s) := by
  have hhas : ahas s.store k = true := by
    unfold ahas
    rw [hv]
    rfl
  constructor
  · simp [WorkerScript.handleMessage, hv, hfalsy]
  · simp [WorkerScript.handleMessage, hhas]

/-- Witness for C10: after `set("k", "")` the key is present with the
empty string; `get` answers `null` yet `exists` answers `1`. -/
theorem claim_C10_witness :
    WorkerScript.handleMessage ⟨[("k", .str "")], []⟩ (.get "k")
        = .ok (.nullv, ⟨[("k", .str "")], []⟩) ∧
    WorkerScript.handleMessage ⟨[("k", .str "")], []⟩ (.exists "k")
        = .ok (.val (.num 1), ⟨[("k", .str "")], []⟩) :=
  claim_C10_get_falsy_null ⟨[("k", .str "")], []⟩ "k" (.str "") rfl rfl

/-- C7 counterexample: `LPUSH` on a key holding the string `"abc"` does
not produce a typed `WrongType` result: the handler calls `unshift` on a
string and dies with an uncaught runtime `TypeError`; no result at all
is reported to the caller. -/
theorem claim_C7_counterexample :
    WorkerScript.handleMessage ⟨[("k", .str "abc")], []⟩
      (.listOp .lpush "k" "v") = .error .typeError := rfl

/-- C7 (amended): there is no typed `WrongType` error anywhere in the
worker.  On a key holding a non-list value, `LPUSH`/`RPUSH` throw an
untyped runtime `TypeError` (and mutate nothing), while `LPOP`/`RPOP`
silently answer `null`; on a key holding a non-set value, `SADD` throws
the same untyped `TypeError`, while `SREM` answers `0` and `SMEMBERS`
answers `[]` — all leaving the stored value unchanged. -/
theorem claim_C7_amended (s : WorkerStore) (k v : String) (val : JSValue)
    (hv : alookup s.store k = some val) :
    (val.isList = false →
      WorkerScript.handleMessage s (.listOp .lpush k v) = .error .typeError ∧
      WorkerScript.handleMessage s (.listOp .rpush k v) = .error .typeError ∧
      WorkerScript.handleMessage s (.listOp .lpop k v) = .ok (.nullv, s) ∧
      WorkerScript.handleMessage s (.listOp .rpop k v) = .ok (.nullv, s)) ∧
    (val.isSet = false →
      WorkerScript.handleMessage s (.setOp .sadd k v) = .error .typeError ∧
      WorkerScript.handleMessage s (.setOp .srem k v) = .ok (.val (.num 0), s) ∧
      WorkerScript.handleMessage s (.setOp .smembers k v)
        = .ok (.val (.list []), s)) := by
  have hhas : ahas s.store k = true := by
    unfold ahas
    rw [hv]
    rfl
  constructor
  · intro hnl
    refine ⟨?_, ?_, ?_, ?_⟩ <;>
      · simp only [WorkerScript.handleMessage, hhas, if_true, hv]
        cases val <;> simp_all [JSValue.isList]
  · intro hns
    refine ⟨?_, ?_, ?_⟩ <;>
      · simp only [WorkerScript.handleMessage, hhas, if_true, hv]
        cases val <;> simp_all [JSValue.isSet]

/-- Witness for C7 (amended), at a key holding the string `"abc"`. -/
theorem claim_C7_amended_witness :
    (WorkerScript.handleMessage ⟨[("k", .str "abc")], []⟩
        (.listOp .rpush "k" "v") = .error .typeError ∧
      WorkerScript.handleMessage ⟨[("k", .str "abc")], []⟩
        (.setOp .sadd "k" "v") = .error .typeError) ∧
    WorkerScript.handleMessage ⟨[("k", .str "abc")], []⟩
        (.setOp .smembers "k" "v")
      = .ok (.val (.list []), ⟨[("k", .str "abc")], []⟩) := by
  have h := claim_C7_amended ⟨[("k", .str "abc")], []⟩ "k" "v" (.str "abc") rfl
  exact ⟨⟨(h.1 rfl).2.1, (h.2 rfl).1⟩, (h.2 rfl).2.2⟩

/-- C5: enqueue into the advanced task queue is idempotent on the
structurally same task: whenever the task's digest is already present
the call changes nothing at all (heap and dedup set included), and in
particular enqueuing the same task twice (same ready-time) into an empty
queue leaves the whole state equal to that after the first enqueue, with
size 1. -/
theorem claim_C5_enqueue_dedup {T : Type} [DecidableEq T] (s : ATQ T) (t : T)
    (p e : Int) (hmem : t ∈ s.taskSet) :
    AdvancedTaskQueue.enqueue s t p e = s ∧
    AdvancedTaskQueue.enqueue
        (AdvancedTaskQueue.enqueue AdvancedTaskQueue.empty t p e) t p e =
      AdvancedTaskQueue.enqueue AdvancedTaskQueue.empty t p e ∧
    AdvancedTaskQueue.size (AdvancedTaskQueue.enqueue
        (AdvancedTaskQueue.enqueue AdvancedTaskQueue.empty t p e) t p e) = 1 := by
  have hdrop : ∀ (s₂ : ATQ T), t ∈ s₂.taskSet →
      AdvancedTaskQueue.enqueue s₂ t p e = s₂ := by
    intro s₂ hm
    unfold AdvancedTaskQueue.enqueue
    rw [if_pos hm]
  have hfirst : AdvancedTaskQueue.enqueue (AdvancedTaskQueue.empty (T := T)) t p e =
      ⟨BinaryHeapPriorityQueue.enqueue [] ⟨t, p, e⟩ p, [t]⟩ := by
    unfold AdvancedTaskQueue.enqueue AdvancedTaskQueue.empty
    rw [if_neg (by simp)]
    rfl
  have hsecond : AdvancedTaskQueue.enqueue
      (AdvancedTaskQueue.enqueue AdvancedTaskQueue.empty t p e) t p e =
      AdvancedTaskQueue.enqueue AdvancedTaskQueue.empty t p e := by
    apply hdrop
    rw [hfirst]
    simp
  refine ⟨hdrop s hmem, hsecond, ?_⟩
  rw [hsecond, hfirst]
  show (BinaryHeapPriorityQueue.enqueue [] (⟨t, p, e⟩ : AdvancedTask T) p).length = 1
  rw [(BinaryHeapPriorityQueue.enqueue_perm [] (⟨t, p, e⟩ : AdvancedTask T) p).length_eq]
  rfl

/-- Witness for C5 at the concrete task `"x"`. -/
theorem claim_C5_enqueue_dedup_witness :
    AdvancedTaskQueue.enqueue (⟨[], ["x"]⟩ : ATQ String) "x" 0 0 = ⟨[], ["x"]⟩ ∧
    AdvancedTaskQueue.enqueue
        (AdvancedTaskQueue.enqueue AdvancedTaskQueue.empty "x" 0 0) "x" 0 0 =
      AdvancedTaskQueue.enqueue AdvancedTaskQueue.empty "x" 0 0 ∧
    AdvancedTaskQueue.size (AdvancedTaskQueue.enqueue
        (AdvancedTaskQueue.enqueue AdvancedTaskQueue.empty "x" 0 0) "x" 0 0) = 1 :=
  claim_C5_enqueue_dedup ⟨[], ["x"]⟩ "x" 0 0 (by simp)

/-- C6: in the `KVStore`, once a key's recorded deadline `d` (a positive
ms timestamp) lies strictly in the past, every read-path command first
deletes the entry and its TTL record and then behaves as if the key were
absent: `get` answers `null`, `exists` answers `0`, `ttl` answers `-1`,
and in the resulting state both the entry and the TTL record are gone. -/
theorem claim_C6_ttl_lazy (s : KVState) (now d : Int) (k : String)
    (hwf₁ : MapWF s.store) (hwf₂ : MapWF s.ttlStore)
    (hd : alookup s.ttlStore k = some d) (hd0 : 0 < d) (hdn : d < now) :
    KVStore.get s now k = (none, ⟨adel s.store k, adel s.ttlStore k⟩) ∧
    KVStore.existsCmd s now k = (0, ⟨adel s.store k, adel s.ttlStore k⟩) ∧
    KVStore.ttl s now k = (-1, ⟨adel s.store k, adel s.ttlStore k⟩) ∧
    alookup (adel s.store k) k = none ∧
    alookup (adel s.ttlStore k) k = none := by
  have hchk : KVStore.checkExpiration s now k =
      ⟨adel s.store k, adel s.ttlStore k⟩ := by
    unfold KVStore.checkExpiration
    simp only [hd]
    rw [if_pos ⟨by omega, hdn⟩]
  have hst : alookup (adel s.store k) k = none := alookup_adel_self s.store k hwf₁
  have htt : alookup (adel s.ttlStore k) k = none := alookup_adel_self s.ttlStore k hwf₂
  refine ⟨?_, ?_, ?_, hst, htt⟩
  · unfold KVStore.get
    rw [hchk]
    simp [hst]
  · unfold KVStore.existsCmd
    rw [hchk]
    simp [ahas, hst]
  · unfold KVStore.ttl
    rw [hchk]
    simp [htt]

/-- Witness for C6: key `"k"` with value `"v"`, deadline 5, read at 10. -/
theorem claim_C6_ttl_lazy_witness :
    KVStore.get ⟨[("k", "v")], [("k", 5)]⟩ 10 "k" = (none, ⟨[], []⟩) ∧
    KVStore.existsCmd ⟨[("k", "v")], [("k", 5)]⟩ 10 "k" = (0, ⟨[], []⟩) ∧
    KVStore.ttl ⟨[("k", "v")], [("k", 5)]⟩ 10 "k" = (-1, ⟨[], []⟩) ∧
    alookup (adel [("k", "v")] "k") "k" = (none : Option String) ∧
    alookup (adel [("k", (5 : Int))] "k") "k" = none :=
  claim_C6_ttl_lazy ⟨[("k", "v")], [("k", 5)]⟩ 10 5 "k" (by simp [MapWF])
    (by simp [MapWF]) rfl (by omega) (by omega)

/-! ### Helper lemmas for C4 (the `ReentrantOctopusMutex` state after an
uncontended run of N locks and k unlocks by a single thread) -/

theorem lockN_init (tid : Nat) :
    ∀ n, 1 ≤ n → ReentrantOctopusMutex.lockN ReentrantOctopusMutex.init tid n =
      ⟨[], true, [(tid, n)], some tid⟩ := by
  intro n
  induction n with
  | zero => omega
  | succ m ih =>
      intro _
      rcases Nat.eq_zero_or_pos m with hm | hm
      · subst hm
        simp [ReentrantOctopusMutex.lockN, ReentrantOctopusMutex.lock,
          ReentrantOctopusMutex.init, ReentrantOctopusMutex.LockResult.state,
          alookup, aset]
      · show (ReentrantOctopusMutex.lock
          (ReentrantOctopusMutex.lockN ReentrantOctopusMutex.init tid m) tid).state = _
        rw [ih hm]
        simp [ReentrantOctopusMutex.lock, ReentrantOctopusMutex.LockResult.state,
          alookup, aset]

theorem unlockN_partial (tid : Nat) (n : Nat) :
    ∀ k, k ≤ n →
      ReentrantOctopusMutex.unlockN ⟨[], true, [(tid, n + 1)], some tid⟩ tid k =
        ⟨[], true, [(tid, n + 1 - k)], some tid⟩ := by
  intro k
  induction k with
  | zero =>
      intro _
      rfl
  | succ m ih =>
      intro hk
      show (ReentrantOctopusMutex.unlock
        (ReentrantOctopusMutex.unlockN ⟨[], true, [(tid, n + 1)], some tid⟩ tid m)
        tid).1 = _
      rw [ih (by omega)]
      have hcount : n + 1 - m > 1 := by omega
      simp only [ReentrantOctopusMutex.unlock, alookup, aset]
      rw [if_neg (by simp), if_pos (by simpa [alookup] using hcount)]
      simp only [if_true, Option.getD_some]
      have heq : n + 1 - m - 1 = n + 1 - (m + 1) := by omega
      rw [heq]

/-- C4: from a free `ReentrantOctopusMutex`, a thread that locks `N ≥ 1`
times still owns the mutex (with count 1) after `N - 1` unlocks, and the
`N`-th unlock returns the mutex to the free state without error; while
in every state an `unlock` by a thread that is not the current owner
throws `NotOwner` before touching anything, leaving the state intact. -/
theorem claim_C4_reentrancy (N tid : Nat) (hN : 1 ≤ N) (s : RMutex) (t : Nat)
    (hno : s.currentOwner ≠ some t) :
    (ReentrantOctopusMutex.unlockN
        (ReentrantOctopusMutex.lockN ReentrantOctopusMutex.init tid N) tid
        (N - 1)).currentOwner = some tid ∧
    ReentrantOctopusMutex.unlock
        (ReentrantOctopusMutex.unlockN
          (ReentrantOctopusMutex.lockN ReentrantOctopusMutex.init tid N) tid
          (N - 1)) tid = (ReentrantOctopusMutex.init, none) ∧
    ReentrantOctopusMutex.unlock s t = (s, some .notOwner) := by
  obtain ⟨n, rfl⟩ : ∃ n, N = n + 1 := ⟨N - 1, by omega⟩
  have hlock := lockN_init tid (n + 1) (by omega)
  have hun : ReentrantOctopusMutex.unlockN
      (ReentrantOctopusMutex.lockN ReentrantOctopusMutex.init tid (n + 1)) tid n =
      ⟨[], true, [(tid, 1)], some tid⟩ := by
    rw [hlock]
    have := unlockN_partial tid n n (le_refl n)
    simpa using this
  have hfinal : ReentrantOctopusMutex.unlock
      (⟨[], true, [(tid, 1)], some tid⟩ : RMutex) tid =
      (ReentrantOctopusMutex.init, none) := by
    simp [ReentrantOctopusMutex.unlock, alookup, adel, ReentrantOctopusMutex.init]
  refine ⟨?_, ?_, ?_⟩
  · simp only [Nat.add_sub_cancel]
    rw [hun]
  · simp only [Nat.add_sub_cancel]
    rw [hun, hfinal]
  · unfold ReentrantOctopusMutex.unlock
    rw [if_pos hno]

/-- Witness for C4 at `N = 3`, owner thread 7, and a non-owner unlock by
thread 2 on a mutex owned by thread 1. -/
theorem claim_C4_reentrancy_witness :
    (ReentrantOctopusMutex.unlockN
        (ReentrantOctopusMutex.lockN ReentrantOctopusMutex.init 7 3) 7
        2).currentOwner = some 7 ∧
    ReentrantOctopusMutex.unlock
        (ReentrantOctopusMutex.unlockN
          (ReentrantOctopusMutex.lockN ReentrantOctopusMutex.init 7 3) 7 2) 7 =
      (ReentrantOctopusMutex.init, none) ∧
    ReentrantOctopusMutex.unlock ⟨[], true, [(1, 2)], some 1⟩ 2 =
      (⟨[], true, [(1, 2)], some 1⟩, some .notOwner) :=
  claim_C4_reentrancy 3 7 (by omega) ⟨[], true, [(1, 2)], some 1⟩ 2 (by simp)

/-- C9: in the `OctupusReentrantMutex` variant, `lock()` by a non-owner
always suspends on a fresh promise (even on a free mutex, where the step
from the free state puts the caller into the wait queue), and from the
resulting state no sequence of steps can ever resolve that waiter: every
`unlock` throws (no owner exists), so the caller stays in `waiting` and
never becomes the owner — it is suspended forever. -/
theorem claim_C9_free_lock_deadlock (t : Nat) (s : OMutexState)
    (hr : OctupusReentrantMutex.Reaches ⟨[], none, [t], []⟩ s) :
    OctupusReentrantMutex.Step OctupusReentrantMutex.free ⟨[], none, [t], []⟩ ∧
    s.currentOwner = none ∧ t ∈ s.waiting := by
  have hstuck : OctupusReentrantMutex.Stuck t s :=
    OctupusReentrantMutex.stuck_reaches ⟨rfl, rfl, by simp⟩ hr
  refine ⟨?_, hstuck.1, hstuck.2.2⟩
  have hstep := OctupusReentrantMutex.Step.lockSuspend
    OctupusReentrantMutex.free t (by simp [OctupusReentrantMutex.free])
  simpa [OctupusReentrantMutex.free] using hstep

/-- Witness for C9 at thread 0 and the initial suspended state itself. -/
theorem claim_C9_free_lock_deadlock_witness :
    OctupusReentrantMutex.Step OctupusReentrantMutex.free ⟨[], none, [0], []⟩ ∧
    (⟨[], none, [0], []⟩ : OMutexState).currentOwner = none ∧
    0 ∈ (⟨[], none, [0], []⟩ : OMutexState).waiting :=
  claim_C9_free_lock_deadlock 0 ⟨[], none, [0], []⟩ Relation.ReflTransGen.refl

/-! ### C2: spec-side ordering and the heap variant's actual ordering -/

/-- Modelled from the spec: P4 prescribes dequeue order equal to sorting
the batch by the composite key `(ready-at ascending, priority
ascending)`. -/
def specReadyAtPriorityLe {T : Type} (a b : AdvancedTask T) : Bool :=
  decide (a.executeAt < b.executeAt ∨
    (a.executeAt = b.executeAt ∧ a.priority ≤ b.priority))

/-- Modelled from the spec: insertion step of a stable sort on the
`(ready-at, priority)` key. -/
def specInsert {T : Type} (a : AdvancedTask T) :
    List (AdvancedTask T) → List (AdvancedTask T)
  | [] => [a]
  | b :: rest =>
      if specReadyAtPriorityLe a b then a :: b :: rest else b :: specInsert a rest

/-- Modelled from the spec: stable sort by `(ready-at, priority)`. -/
def specSort {T : Type} : List (AdvancedTask T) → List (AdvancedTask T)
  | [] => []
  | a :: rest => specInsert a (specSort rest)

/-- Modelled from the spec: the task sequence P4 prescribes. -/
def specDequeueOrder {T : Type} (entries : List (AdvancedTask T)) : List T :=
  (specSort entries).map (·.task)

/-- C2 counterexample: tasks `a` (priority 1, ready at 100) and `b`
(priority 5, ready at 0), drained at time 100 when both are ready.  The
heap variant orders by priority alone, so it yields `a` first, while the
spec's `(ready-at, priority)` sort puts `b` first. -/
theorem claim_C2_counterexample :
    AdvancedTaskQueue.drain 100 2
        (AdvancedTaskQueue.enqueueAll AdvancedTaskQueue.empty
          [⟨"a", 1, 100⟩, ⟨"b", 5, 0⟩]) = ["a", "b"] ∧
    specDequeueOrder [(⟨"a", 1, 100⟩ : AdvancedTask String), ⟨"b", 5, 0⟩]
      = ["b", "a"] ∧
    (["a", "b"] : List String) ≠ ["b", "a"] := by
  refine ⟨?_, rfl, by decide⟩
  simp [AdvancedTaskQueue.drain, AdvancedTaskQueue.dequeue,
    AdvancedTaskQueue.enqueueAll, AdvancedTaskQueue.enqueue,
    AdvancedTaskQueue.empty, BinaryHeapPriorityQueue.enqueue,
    BinaryHeapPriorityQueue.dequeue, BinaryHeapPriorityQueue.heapifyUp,
    BinaryHeapPriorityQueue.heapifyDown, BinaryHeapPriorityQueue.smallestIdx,
    BinaryHeapPriorityQueue.priAt, BinaryHeapPriorityQueue.swap]

/-- C2 (amended): for a batch of distinct tasks enqueued into the heap
variant of the advanced task queue, once all tasks are ready repeated
dequeue returns a permutation of the batch whose node sequence is
non-decreasing in priority: the order is by priority alone (ties in heap
order); `ready-at` gates readiness but takes no part in the ordering. -/
theorem claim_C2_priority_order {T : Type} [DecidableEq T]
    (entries : List (AdvancedTask T)) (now : Int)
    (hdist : (entries.map (·.task)).Nodup)
    (hready : ∀ e ∈ entries, e.executeAt ≤ now) :
    List.Perm (AdvancedTaskQueue.drain now entries.length
        (AdvancedTaskQueue.enqueueAll AdvancedTaskQueue.empty entries))
      (entries.map (·.task)) ∧
    AdvancedTaskQueue.drain now entries.length
        (AdvancedTaskQueue.enqueueAll AdvancedTaskQueue.empty entries) =
      (BinaryHeapPriorityQueue.drainNodes entries.length
        (AdvancedTaskQueue.enqueueAll AdvancedTaskQueue.empty entries).queue).map
        (·.task.task) ∧
    List.Pairwise (fun a b : HeapNode (AdvancedTask T) => a.priority ≤ b.priority)
      (BinaryHeapPriorityQueue.drainNodes entries.length
        (AdvancedTaskQueue.enqueueAll AdvancedTaskQueue.empty entries).queue) := by
  have hspec := AdvancedTaskQueue.enqueueAll_spec entries AdvancedTaskQueue.empty
    (by intro i hi hlen; simp [AdvancedTaskQueue.empty] at hlen)
    (by simp [AdvancedTaskQueue.empty])
    (by simpa [AdvancedTaskQueue.empty] using hdist)
  obtain ⟨hheap, hperm, -⟩ := hspec
  have hperm₂ : List.Perm
      (AdvancedTaskQueue.enqueueAll (AdvancedTaskQueue.empty (T := T)) entries).queue
      (entries.map (fun e => ⟨e, e.priority⟩)) := by
    simpa [AdvancedTaskQueue.empty] using hperm
  have hlen : (AdvancedTaskQueue.enqueueAll (AdvancedTaskQueue.empty (T := T))
      entries).queue.length = entries.length := by
    rw [hperm₂.length_eq, List.length_map]
  have hreadyq : ∀ n ∈ (AdvancedTaskQueue.enqueueAll
      (AdvancedTaskQueue.empty (T := T)) entries).queue, n.task.executeAt ≤ now := by
    intro n hn
    have : n ∈ entries.map (fun e => (⟨e, e.priority⟩ : HeapNode (AdvancedTask T))) :=
      hperm₂.mem_iff.mp hn
    obtain ⟨e, he, rfl⟩ := List.mem_map.mp this
    exact hready e he
  have hdrain := AdvancedTaskQueue.drain_eq_drainNodes now entries.length
    (AdvancedTaskQueue.enqueueAll AdvancedTaskQueue.empty entries) hreadyq
  have hdperm := BinaryHeapPriorityQueue.drainNodes_perm entries.length
    (AdvancedTaskQueue.enqueueAll (AdvancedTaskQueue.empty (T := T)) entries).queue
    (by omega)
  refine ⟨?_, hdrain, BinaryHeapPriorityQueue.drainNodes_sorted entries.length _ hheap⟩
  rw [hdrain]
  refine List.Perm.trans (List.Perm.map _ (hdperm.trans hperm₂)) ?_
  rw [List.map_map]
  exact List.Perm.refl _

/-- Witness for C2 (amended) at the single-task batch `[("x", 1, 0)]`
drained at time 0. -/
theorem claim_C2_priority_order_witness :
    List.Perm (AdvancedTaskQueue.drain 0 1
        (AdvancedTaskQueue.enqueueAll AdvancedTaskQueue.empty
          [(⟨"x", 1, 0⟩ : AdvancedTask String)])) ["x"] ∧
    AdvancedTaskQueue.drain 0 1
        (AdvancedTaskQueue.enqueueAll AdvancedTaskQueue.empty
          [(⟨"x", 1, 0⟩ : AdvancedTask String)]) =
      (BinaryHeapPriorityQueue.drainNodes 1
        (AdvancedTaskQueue.enqueueAll AdvancedTaskQueue.empty
          [(⟨"x", 1, 0⟩ : AdvancedTask String)]).queue).map (·.task.task) ∧
    List.Pairwise
      (fun a b : HeapNode (AdvancedTask String) => a.priority ≤ b.priority)
      (BinaryHeapPriorityQueue.drainNodes 1
        (AdvancedTaskQueue.enqueueAll AdvancedTaskQueue.empty
          [(⟨"x", 1, 0⟩ : AdvancedTask String)]).queue) :=
  claim_C2_priority_order [⟨"x", 1, 0⟩] 0 (by simp) (by simp)

end OctopusDB
